import Mathlib

/-!
Verification of the klaas command-line scripts
(`apply_regression_model.py`, `apply_separation_model.py`,
`split_data.py`, `train_energy_regressor.py`).

Modelling conventions:
* a float value is modelled as `Option ℚ`: `none` stands for an invalid
  value (NaN or inf), `some q` for a finite value;
* transcendental float operations that the scripts delegate to numpy
  (`np.exp`, the square root inside `np.std`) are passed in as function
  parameters `ex sq : ℚ → ℚ`, so every statement holds for an arbitrary
  interpretation of these operations;
* external collaborators (the sklearn estimators, `np.random.choice`,
  the chunked HDF5 reader) are passed in as parameters, constrained only
  by the interface the scripts rely on.
-/

namespace Klaas

/-- A float cell: `none` models an invalid value (NaN or inf). -/
abbrev Val := Option ℚ

/-- Modelled from the spec: `check_valid_rows` (klaas.preprocessing, not part
of the sources at hand) masks out rows containing invalid values (NaN/inf);
a row is valid when every feature cell holds a finite value. -/
def isValidRow (row : List Val) : Bool := row.all (fun v => v.isSome)

/-- The finite feature vector of a row (meaningful on valid rows). -/
def rowFeatures (row : List Val) : List ℚ := row.map (fun v => v.getD 0)

/-- numpy mean of a list (`np.mean`). -/
def listMean (l : List ℚ) : ℚ := l.sum / l.length

/-- numpy population variance: the mean squared deviation (ddof = 0),
the quantity under the square root in `np.std`. -/
def listVariance (l : List ℚ) : ℚ := listMean (l.map (fun x => (x - listMean l) ^ 2))

/-- Column `j` of a matrix stored as a list of rows (entries past the end
read as `0`; all uses stay in bounds). -/
def column (P : List (List ℚ)) (j : ℕ) : List ℚ := P.map (fun row => row.getD j 0)

/-- `np.mean(P, axis=0)` for a matrix `P` whose rows all have length `n`. -/
def axisMean (P : List (List ℚ)) (n : ℕ) : List ℚ :=
  (List.range n).map (fun j => listMean (column P j))

/-- `np.std(P, axis=0)` for a matrix whose rows all have length `n`, with the
square root modelled by the parameter `sq`. -/
def axisStd (sq : ℚ → ℚ) (P : List (List ℚ)) (n : ℕ) : List ℚ :=
  (List.range n).map (fun j => sq (listVariance (column P j)))

/-- Boolean-mask assignment into an array prefilled with NaN:
`a = np.full(n, nan); a[mask] = vs`.  Positions where the mask is `false`
keep `none`; positions where it is `true` consume the next value.  (The
case of too few values cannot occur in the uses below.) -/
def scatter : List Bool → List ℚ → List Val
| [], _ => []
| false :: mask, vs => none :: scatter mask vs
| true :: mask, [] => none :: scatter mask []
| true :: mask, v :: vs => some v :: scatter mask vs

/-- The per-member predictions of one row in `apply_regression_model.main`:
each ensemble member `t` predicts on the row's features, and when
`log_target` is set every member prediction is exponentiated. -/
def memberPreds (members : List (List ℚ → ℚ)) (logTarget : Bool) (ex : ℚ → ℚ)
    (row : List Val) : List ℚ :=
  let ps := members.map (fun t => t (rowFeatures row))
  if logTarget then ps.map ex else ps

/-- Row-wise reading of the chunk body: a valid row gets the mean and the
standard deviation of its per-member predictions, an invalid row gets NaN
in both outputs. -/
def predictRow (members : List (List ℚ → ℚ)) (logTarget : Bool) (ex sq : ℚ → ℚ)
    (row : List Val) : Val × Val :=
  if isValidRow row then
    (some (listMean (memberPreds members logTarget ex row)),
     some (sq (listVariance (memberPreds members logTarget ex row))))
  else (none, none)

/-- The body of the chunk loop of `apply_regression_model.main`, transcribed
matrix-wise as the script computes it: build the validity mask, stack the
per-member predictions on the valid rows, exponentiate the whole matrix when
`log_target` is set, aggregate along axis 0, and scatter the aggregates into
NaN-prefilled arrays. -/
def applyChunk (members : List (List ℚ → ℚ)) (logTarget : Bool) (ex sq : ℚ → ℚ)
    (rows : List (List Val)) : List Val × List Val :=
  let valid := rows.map isValidRow
  let validX := (rows.filter (fun r => isValidRow r)).map rowFeatures
  let preds0 := members.map (fun t => validX.map t)
  let preds := if logTarget then preds0.map (fun p => p.map ex) else preds0
  (scatter valid (axisMean preds validX.length),
   scatter valid (axisStd sq preds validX.length))

/-- Fuel-driven helper for `chunkList`; the fuel is instantiated with the
length of the list, which always suffices. -/
def chunkListAux (c : ℕ) : ℕ → List α → List (List α)
| 0, _ => []
| _ + 1, [] => []
| fuel + 1, a :: as => ((a :: as).take c) :: chunkListAux c fuel ((a :: as).drop c)

/-- The chunking performed by the chunked HDF5 reader: cut the row list into
consecutive windows of `c` rows (the last window may be shorter). -/
def chunkList (c : ℕ) (l : List α) : List (List α) := chunkListAux c l.length l

/-- The whole chunked prediction run of `apply_regression_model.main`: process
every chunk and concatenate the written ranges, in order, into the two
output arrays. -/
def applyChunked (members : List (List ℚ → ℚ)) (logTarget : Bool) (ex sq : ℚ → ℚ)
    (c : ℕ) (rows : List (List Val)) : List Val × List Val :=
  let outs := (chunkList c rows).map (applyChunk members logTarget ex sq)
  ((outs.map Prod.fst).flatten, (outs.map Prod.snd).flatten)

/-- Example ensemble member reading the first feature (used in witnesses). -/
def t0 : List ℚ → ℚ := fun fs => fs.getD 0 0

/-- Example ensemble member reading the second feature (used in witnesses). -/
def t1 : List ℚ → ℚ := fun fs => fs.getD 1 0

/-- Example chunk: one valid row, one row with an invalid feature. -/
def exRows2 : List (List Val) := [[some 1], [none]]

/-- Example dataset of three rows, one invalid. -/
def exRows3 : List (List Val) := [[some 1], [none], [some 3]]

/-- Example dataset with two features per row. -/
def exRowsB : List (List Val) := [[some 1, some 2], [none, some 5]]

/-- Example estimator for the trainer witness: fitting remembers the training
labels. -/
def exFit : List (List ℚ) → List ℚ → List ℚ := fun _ ys => ys

/-- Example predictor for the trainer witness: predict the remembered labels. -/
def exPredict : List ℚ → List (List ℚ) → List ℚ := fun m _ => m

/-- Example training features for the trainer witness. -/
def exX : List (List ℚ) := [[1], [2], [3], [4]]

/-- Example training labels for the trainer witness. -/
def exY : List ℚ := [1, 2, 3, 4]

/-- Example two-fold index split for the trainer witness. -/
def exFolds : List (List ℕ × List ℕ) := [([0, 1], [2, 3]), ([2, 3], [0, 1])]

/-- One HDF5 write of the chunk loop: when the dataset does not yet exist it
is created from the chunk's array (`create_dataset`), otherwise it is resized
to `n_existing + n_new` and the slice `start:end` is assigned — since the
loop always has `start = n_existing` and `end = start + n_new`, this appends
the chunk's array. -/
def writeChunkDataset : Option (List Val) → List Val → Option (List Val)
| none, arr => some arr
| some old, arr => some (old ++ arr)

/-! ### The dataset splitter (`split_data.main`) -/

/-- Python 3 `round` (banker's rounding, ties to the even integer), as used
in `int(round(n_total * f))`. -/
def pyRound (q : ℚ) : ℤ :=
  if q - ⌊q⌋ < 1 / 2 then ⌊q⌋
  else if 1 / 2 < q - ⌊q⌋ then ⌊q⌋ + 1
  else if ⌊q⌋ % 2 = 0 then ⌊q⌋ else ⌊q⌋ + 1

/-- `num_events = [int(round(n_total * f)) for f in fraction]`. -/
def numEvents (nTotal : ℕ) (fractions : List ℚ) : List ℤ :=
  fractions.map (fun f => pyRound (nTotal * f))

/-- `if sum(num_events) > n_total: num_events[-1] -= sum(num_events) - n_total`:
when the rounded counts overshoot the total, the whole overflow is taken out
of the last count. -/
def adjustCounts (nTotal : ℕ) (counts : List ℤ) : List ℤ :=
  if (nTotal : ℤ) < counts.sum then
    counts.dropLast ++ [counts.getLast?.getD 0 - (counts.sum - nTotal)]
  else counts

/-- The sampling loop of `split_data.main`, tracking row identities: for each
requested count, `np.random.choice(all_idx, size=n, replace=False)` draws a
sample (modelled by the parameter `choice`) from the rows still in the pool,
and the sampled rows are removed from the pool before the next part.
`np.random.choice` raises (here: `.error ()`) when the requested size is
negative or exceeds the pool. -/
def splitRun (choice : Finset ℕ → ℕ → Finset ℕ) : Finset ℕ → List ℤ → Except Unit (List (Finset ℕ))
| _, [] => .ok []
| pool, n :: ns =>
  if 0 ≤ n ∧ n.toNat ≤ pool.card then
    match splitRun choice (pool \ choice pool n.toNat) ns with
    | .ok parts => .ok (choice pool n.toNat :: parts)
    | .error e => .error e
  else .error ()

/-- `split_data.main`: assert that names and fractions have equal length,
warn (first component of the result, without aborting) when the fractions do
not sum to 1, compute the rounded and adjusted counts, and run the sampling
loop over the pool of all row identities. -/
def splitMain (choice : Finset ℕ → ℕ → Finset ℕ) (nTotal : ℕ)
    (fractions : List ℚ) (names : List String) :
    Except Unit (Bool × List (Finset ℕ)) :=
  if fractions.length = names.length then
    match splitRun choice (Finset.range nTotal) (adjustCounts nTotal (numEvents nTotal fractions)) with
    | .ok parts => .ok (decide (fractions.sum ≠ 1), parts)
    | .error e => .error e
  else .error ()

/-- A concrete sampler satisfying the `np.random.choice` interface: take the
first `n` row identities of the pool in increasing order. -/
def takeChoice (p : Finset ℕ) (n : ℕ) : Finset ℕ :=
  ((p.sort (· ≤ ·)).take n).toFinset

/-- A concrete realization of the random draws used in the counterexample
run: draw the `n` smallest row identities (a valid draw whenever the pool is
an initial segment, as it is at every step of that run). -/
def exChoice : Finset ℕ → ℕ → Finset ℕ := fun _ n => Finset.range n

/-! ### The cross-validated trainer (`train_energy_regressor.main`) -/

/-- `sklearn.metrics.r2_score`: one minus the ratio of the residual sum of
squares to the total sum of squares. -/
def r2Score (yTrue yPred : List ℚ) : ℚ :=
  let m := listMean yTrue
  let ssRes := ((yTrue.zip yPred).map (fun p => (p.1 - p.2) ^ 2)).sum
  let ssTot := (yTrue.map (fun y => (y - m) ^ 2)).sum
  1 - ssRes / ssTot

/-- The cross-validation loop of `train_energy_regressor.main` over the fold
index pairs produced by the (external) k-fold splitter: for each fold, fit
the estimator on the training rows, predict on the held-out rows, undo the
log transform on both the held-out labels and the predictions when
`log_target` is set, and record the fold's labels, predictions, fold number
and coefficient of determination. -/
def cvSplitApply {M : Type} (fit : List (List ℚ) → List ℚ → M)
    (predictFn : M → List (List ℚ) → List ℚ) (logTarget : Bool) (ex : ℚ → ℚ)
    (X : List (List ℚ)) (y : List ℚ) (folds : List (List ℕ × List ℕ)) :
    List (List ℚ × List ℚ × ℕ × ℚ) :=
  folds.enum.map (fun p =>
    let xTest := p.2.2.map (fun i => X.getD i [])
    let yTest0 := p.2.2.map (fun i => y.getD i 0)
    let model := fit (p.2.1.map (fun i => X.getD i [])) (p.2.1.map (fun i => y.getD i 0))
    let pred0 := predictFn model xTest
    let yTest := if logTarget then yTest0.map ex else yTest0
    let pred := if logTarget then pred0.map ex else pred0
    (yTest, pred, p.1, r2Score yTest pred))

/-- Modelled from the spec: for each fold, fit a fresh copy of the configured
estimator on the training subset and predict on the held-out subset, undoing
any log transform (exponentiating predictions and true labels) before the
per-fold coefficient-of-determination score is computed. -/
def specFoldOutcome {M : Type} (fit : List (List ℚ) → List ℚ → M)
    (predictFn : M → List (List ℚ) → List ℚ) (logTarget : Bool) (ex : ℚ → ℚ)
    (X : List (List ℚ)) (y : List ℚ) (tr te : List ℕ) (fold : ℕ) :
    List ℚ × List ℚ × ℕ × ℚ :=
  let freshModel := fit (tr.map (fun i => X.getD i [])) (tr.map (fun i => y.getD i 0))
  let rawPred := predictFn freshModel (te.map (fun i => X.getD i []))
  let rawTrue := te.map (fun i => y.getD i 0)
  let linPred := if logTarget then rawPred.map ex else rawPred
  let linTrue := if logTarget then rawTrue.map ex else rawTrue
  (linTrue, linPred, fold, r2Score linTrue linPred)

/-! ### Script-level control flow of the two apply scripts -/

/-- The ways an apply script aborts. -/
inductive ApplyErr
  | sourceDependent
  | abortedOverwrite
  | keyError
deriving DecidableEq

/-- The overwrite block of `apply_regression_model.main`: when the prediction
column exists, prompt unless `--yes` was given (`confirm` is the user's
answer; declining aborts), then delete the prediction column and then the
companion std column.  The h5py deletion of a missing std column raises a
KeyError; the error carries the set of columns present at that moment. -/
def overwriteCheck (cols : Finset String) (className : String) (yes confirm : Bool) :
    Except (ApplyErr × Finset String) (Finset String) :=
  if className ∈ cols then
    if yes = false ∧ confirm = false then .error (.abortedOverwrite, cols)
    else
      let afterFirst := cols.erase className
      if className ++ "_std" ∈ afterFirst then .ok (afterFirst.erase (className ++ "_std"))
      else .error (.keyError, afterFirst)
  else .ok cols

/-- `apply_regression_model.main` end to end: run the overwrite block, then
predict chunk by chunk.  The script performs no check of `trainingVariables`
for source-dependent features — the parameter is carried only to record the
configured feature set. -/
def applyRegressionRun (trainingVariables : List String)
    (members : List (List ℚ → ℚ)) (logTarget : Bool) (ex sq : ℚ → ℚ) (c : ℕ)
    (cols : Finset String) (className : String) (yes confirm : Bool)
    (rows : List (List Val)) : Except (ApplyErr × Finset String) (List Val × List Val) :=
  match overwriteCheck cols className yes confirm with
  | .error e => .error e
  | .ok _ => .ok (applyChunked members logTarget ex sq c rows)

/-- `apply_separation_model.main` up to the shape the claims need: abort with
a user-facing error when any configured column is source-dependent (the
predicate `srcDep`, modelled from the spec's glossary, stands for
`has_source_dependent_columns`), and otherwise run chunked prediction with
the classifier's (external) predictor and return the written column. -/
def applySeparationRun (srcDep : String → Bool) (columnsToRead : List String)
    (predictFn : List (List Val) → List ℚ) (c : ℕ) (rows : List (List Val)) :
    Except ApplyErr (List ℚ) :=
  if columnsToRead.any srcDep then .error .sourceDependent
  else .ok (((chunkList c rows).map predictFn).flatten)

/-- Decidable equality for script results. -/
instance exceptDecEq {ε α : Type _} [DecidableEq ε] [DecidableEq α] :
    DecidableEq (Except ε α)
  | .error a, .error b =>
    if h : a = b then isTrue (by rw [h]) else isFalse (fun hh => h (by injection hh))
  | .error _, .ok _ => isFalse (fun hh => Except.noConfusion hh)
  | .ok _, .error _ => isFalse (fun hh => Except.noConfusion hh)
  | .ok a, .ok b =>
    if h : a = b then isTrue (by rw [h]) else isFalse (fun hh => h (by injection hh))

/-! ### Chunking lemmas -/

lemma chunkListAux_congr {α : Type _} (c : ℕ) (hc : 0 < c) :
    ∀ fuel₁ fuel₂ (l : List α), l.length ≤ fuel₁ → l.length ≤ fuel₂ →
      chunkListAux c fuel₁ l = chunkListAux c fuel₂ l := by
  intro fuel₁
  induction fuel₁ with
  | zero =>
    intro fuel₂ l h₁ _
    have : l = [] := List.eq_nil_of_length_eq_zero (Nat.le_zero.mp h₁)
    subst this
    cases fuel₂ <;> rfl
  | succ f ih =>
    intro fuel₂ l h₁ h₂
    cases l with
    | nil => cases fuel₂ <;> rfl
    | cons a as =>
      cases fuel₂ with
      | zero => exact absurd h₂ (by simp)
      | succ g =>
        simp only [List.length_cons] at h₁ h₂
        have hd : ((a :: as).drop c).length = as.length + 1 - c := by
          simp [List.length_drop]
        simp only [chunkListAux]
        congr 1
        apply ih
        · rw [hd]; omega
        · rw [hd]; omega

lemma chunkList_nil {α : Type _} (c : ℕ) : chunkList c ([] : List α) = [] := rfl

lemma chunkList_cons {α : Type _} {c : ℕ} (hc : 0 < c) (l : List α) (hl : l ≠ []) :
    chunkList c l = l.take c :: chunkList c (l.drop c) := by
  obtain ⟨a, as, rfl⟩ := List.exists_cons_of_ne_nil hl
  show chunkListAux c (as.length + 1) (a :: as) = _
  simp only [chunkListAux]
  congr 1
  apply chunkListAux_congr c hc
  · simp [List.length_drop]; omega
  · exact le_rfl

lemma chunkList_flatten {α : Type _} {c : ℕ} (hc : 0 < c) (l : List α) :
    (chunkList c l).flatten = l := by
  by_cases hl : l = []
  · subst hl; rfl
  · rw [chunkList_cons hc l hl]
    have hrec := chunkList_flatten hc (l.drop c)
    simp [hrec, List.take_append_drop]
termination_by l.length
decreasing_by
  simp only [List.length_drop]
  have : 0 < l.length := List.length_pos.mpr hl
  omega

lemma chunkList_take_length_sum {α : Type _} {c : ℕ} (hc : 0 < c) (l : List α) (k : ℕ) :
    ((((chunkList c l).take k).map List.length).sum) = min (k * c) l.length := by
  by_cases hl : l = []
  · subst hl; simp [chunkList_nil]
  · cases k with
    | zero => simp
    | succ k =>
      rw [chunkList_cons hc l hl]
      have hrec := chunkList_take_length_sum hc (l.drop c) k
      simp only [List.take_succ_cons, List.map_cons, List.sum_cons, hrec]
      rw [List.length_take, List.length_drop, Nat.succ_mul]
      omega
termination_by l.length
decreasing_by
  simp only [List.length_drop]
  have : 0 < l.length := List.length_pos.mpr hl
  omega

/-! ### Dataset append lemmas -/

lemma foldl_write_some (l : List (List Val)) :
    ∀ a : List Val, l.foldl writeChunkDataset (some a) = some (a ++ l.flatten) := by
  induction l with
  | nil => intro a; simp [writeChunkDataset]
  | cons x xs ih =>
    intro a
    simp only [List.foldl_cons, writeChunkDataset, ih, List.flatten_cons, List.append_assoc]

lemma foldl_write_none (l : List (List Val)) (h : l ≠ []) :
    l.foldl writeChunkDataset none = some l.flatten := by
  obtain ⟨x, xs, rfl⟩ := List.exists_cons_of_ne_nil h
  simp only [List.foldl_cons, writeChunkDataset, foldl_write_some, List.flatten_cons]

/-! ### Per-row reading of the chunk body -/

lemma column_outer_zero (m : List (List ℚ → ℚ)) (fr : List ℚ) (X : List (List ℚ)) :
    column (m.map (fun t => t fr :: X.map t)) 0 = m.map (fun t => t fr) := by
  simp [column, List.map_map, Function.comp]

lemma column_outer_succ (m : List (List ℚ → ℚ)) (fr : List ℚ) (X : List (List ℚ)) (j : ℕ) :
    column (m.map (fun t => t fr :: X.map t)) (j + 1)
      = column (m.map (fun t => X.map t)) j := by
  simp [column, List.map_map, Function.comp]

lemma axisList_cons (g : List ℚ → ℚ) (m : List (List ℚ → ℚ)) (fr : List ℚ)
    (X : List (List ℚ)) :
    (List.range (X.length + 1)).map (fun j => g (column (m.map (fun t => t fr :: X.map t)) j))
      = g (m.map (fun t => t fr))
        :: (List.range X.length).map (fun j => g (column (m.map (fun t => X.map t)) j)) := by
  rw [List.range_succ_eq_map, List.map_cons, List.map_map]
  refine List.cons_eq_cons.mpr ⟨?_, ?_⟩
  · show g (column (m.map (fun t => t fr :: X.map t)) 0) = _
    rw [column_outer_zero]
  · refine List.map_congr_left ?_
    intro j _
    show g (column (m.map (fun t => t fr :: X.map t)) (j + 1)) = _
    rw [column_outer_succ]

lemma scatter_axis (g : List ℚ → ℚ) (m : List (List ℚ → ℚ)) :
    ∀ rows : List (List Val),
      scatter (rows.map isValidRow)
        ((List.range (((rows.filter (fun r => isValidRow r)).map rowFeatures).length)).map
          (fun j => g (column (m.map
            (fun t => ((rows.filter (fun r => isValidRow r)).map rowFeatures).map t)) j)))
      = rows.map (fun r =>
          if isValidRow r then some (g (m.map (fun t => t (rowFeatures r)))) else none) := by
  intro rows
  induction rows with
  | nil => simp [scatter]
  | cons r rs ih =>
    by_cases hv : isValidRow r
    · simp only [List.filter_cons_of_pos hv, List.map_cons, List.length_cons, hv, if_true,
        axisList_cons, scatter]
      exact List.cons_eq_cons.mpr ⟨rfl, ih⟩
    · have hvb : isValidRow r = false := by simpa using hv
      have hfil : (r :: rs).filter (fun x => isValidRow x) = rs.filter (fun x => isValidRow x) := by
        simp [List.filter_cons, hvb]
      rw [hfil]
      simp only [List.map_cons, hvb, scatter]
      refine List.cons_eq_cons.mpr ⟨by simp, ih⟩

lemma memberPreds_eq (m : List (List ℚ → ℚ)) (lt : Bool) (ex : ℚ → ℚ) (row : List Val) :
    memberPreds m lt ex row
      = (if lt then m.map (fun t => fun fs => ex (t fs)) else m).map
          (fun t => t (rowFeatures row)) := by
  cases lt <;> simp [memberPreds, List.map_map, Function.comp]

lemma predMatrix_eq (m : List (List ℚ → ℚ)) (lt : Bool) (ex : ℚ → ℚ) (X : List (List ℚ)) :
    (if lt then (m.map (fun t => X.map t)).map (fun p => p.map ex) else m.map (fun t => X.map t))
      = (if lt then m.map (fun t => fun fs => ex (t fs)) else m).map (fun t => X.map t) := by
  cases lt <;> simp [List.map_map, Function.comp]

/-- The chunk body of `apply_regression_model.main` read row by row: the two
written arrays are exactly the per-row outputs of `predictRow`, in order. -/
lemma applyChunk_eq_map (m : List (List ℚ → ℚ)) (lt : Bool) (ex sq : ℚ → ℚ)
    (rows : List (List Val)) :
    applyChunk m lt ex sq rows
      = (rows.map (fun r => (predictRow m lt ex sq r).1),
         rows.map (fun r => (predictRow m lt ex sq r).2)) := by
  unfold applyChunk
  simp only [predMatrix_eq, axisMean, axisStd]
  rw [scatter_axis listMean (if lt then m.map (fun t => fun fs => ex (t fs)) else m) rows,
      scatter_axis (fun l => sq (listVariance l))
        (if lt then m.map (fun t => fun fs => ex (t fs)) else m) rows]
  refine Prod.ext ?_ ?_
  · refine List.map_congr_left ?_
    intro r _
    by_cases hr : isValidRow r <;> simp [predictRow, hr, memberPreds_eq]
  · refine List.map_congr_left ?_
    intro r _
    by_cases hr : isValidRow r <;> simp [predictRow, hr, memberPreds_eq]

lemma getD_map_lt {α β : Type _} (f : α → β) (l : List α) (i : ℕ)
    (hi : i < l.length) (d : β) (d' : α) :
    (l.map f).getD i d = f (l.getD i d') := by
  rw [List.getD_eq_getElem _ _ (by simpa using hi), List.getElem_map,
    List.getD_eq_getElem _ _ hi]

/-! ### Claim C1 -/

/-- C1: in every chunk processed by the regression apply script, every row
with an invalid feature value (NaN/inf) receives NaN in both the prediction
and the prediction-std output, every valid row receives a finite value in
both, and no row is dropped: both output arrays always cover the whole
chunk, so an invalid row never aborts the chunk or the run. -/
theorem C1_invalid_rows_nan_valid_rows_finite (m : List (List ℚ → ℚ)) (lt : Bool)
    (ex sq : ℚ → ℚ) (rows : List (List Val)) (hm : 0 < m.length) :
    (applyChunk m lt ex sq rows).1.length = rows.length ∧
    (applyChunk m lt ex sq rows).2.length = rows.length ∧
    ∀ i, i < rows.length →
      (isValidRow (rows.getD i []) = false →
        (applyChunk m lt ex sq rows).1.getD i (some 0) = none ∧
        (applyChunk m lt ex sq rows).2.getD i (some 0) = none) ∧
      (isValidRow (rows.getD i []) = true →
        ((applyChunk m lt ex sq rows).1.getD i none).isSome = true ∧
        ((applyChunk m lt ex sq rows).2.getD i none).isSome = true) := by
  rw [applyChunk_eq_map]
  refine ⟨by simp, by simp, fun i hi => ⟨fun hinv => ?_, fun hval => ?_⟩⟩
  · rw [getD_map_lt _ rows i hi _ [], getD_map_lt _ rows i hi _ []]
    generalize rows.getD i [] = r at hinv ⊢
    simp [predictRow, hinv]
  · rw [getD_map_lt _ rows i hi _ [], getD_map_lt _ rows i hi _ []]
    generalize rows.getD i [] = r at hval ⊢
    simp [predictRow, hval]

theorem C1_witness :
    0 < ([t0] : List (List ℚ → ℚ)).length ∧
    ((applyChunk [t0] false id id exRows2).1.length = exRows2.length ∧
      (applyChunk [t0] false id id exRows2).2.length = exRows2.length ∧
      ∀ i, i < exRows2.length →
        (isValidRow (exRows2.getD i []) = false →
          (applyChunk [t0] false id id exRows2).1.getD i (some 0) = none ∧
          (applyChunk [t0] false id id exRows2).2.getD i (some 0) = none) ∧
        (isValidRow (exRows2.getD i []) = true →
          ((applyChunk [t0] false id id exRows2).1.getD i none).isSome = true ∧
          ((applyChunk [t0] false id id exRows2).2.getD i none).isSome = true)) :=
  ⟨by simp, C1_invalid_rows_nan_valid_rows_finite [t0] false id id exRows2 (by simp)⟩

/-! ### Claim C2 -/

/-- C2: for every chunk size (whether or not it divides the row count), the
chunked prediction run produces prediction and prediction-std arrays
identical to a single unchunked pass over the whole dataset. -/
theorem C2_chunked_eq_unchunked (m : List (List ℚ → ℚ)) (lt : Bool) (ex sq : ℚ → ℚ)
    (c : ℕ) (rows : List (List Val)) (hc : 0 < c) :
    applyChunked m lt ex sq c rows = applyChunk m lt ex sq rows := by
  unfold applyChunked
  rw [applyChunk_eq_map]
  refine Prod.ext ?_ ?_
  · show (((chunkList c rows).map (applyChunk m lt ex sq)).map Prod.fst).flatten = _
    rw [List.map_map]
    have h : ((chunkList c rows).map (Prod.fst ∘ applyChunk m lt ex sq))
        = (chunkList c rows).map (List.map (fun r => (predictRow m lt ex sq r).1)) := by
      refine List.map_congr_left fun ch _ => ?_
      show (applyChunk m lt ex sq ch).1 = _
      rw [applyChunk_eq_map]
    rw [h, ← List.map_flatten, chunkList_flatten hc]
  · show (((chunkList c rows).map (applyChunk m lt ex sq)).map Prod.snd).flatten = _
    rw [List.map_map]
    have h : ((chunkList c rows).map (Prod.snd ∘ applyChunk m lt ex sq))
        = (chunkList c rows).map (List.map (fun r => (predictRow m lt ex sq r).2)) := by
      refine List.map_congr_left fun ch _ => ?_
      show (applyChunk m lt ex sq ch).2 = _
      rw [applyChunk_eq_map]
    rw [h, ← List.map_flatten, chunkList_flatten hc]

theorem C2_witness :
    0 < 2 ∧
    applyChunked [t0] false id id 2 exRows3 = applyChunk [t0] false id id exRows3 :=
  ⟨by decide, C2_chunked_eq_unchunked [t0] false id id 2 exRows3 (by decide)⟩

/-! ### Claim C3 -/

/-- C3: with `log_target` true, each ensemble member's per-row prediction is
exponentiated before aggregating, so a valid row's point estimate is the mean
of the exponentiated per-member predictions and its uncertainty is their
standard deviation, both computed in linear space. -/
theorem C3_exp_before_aggregation (m : List (List ℚ → ℚ)) (ex sq : ℚ → ℚ)
    (rows : List (List Val)) (i : ℕ) (hi : i < rows.length)
    (hv : isValidRow (rows.getD i []) = true) :
    (applyChunk m true ex sq rows).1.getD i none
      = some (listMean ((m.map (fun t => t (rowFeatures (rows.getD i [])))).map ex)) ∧
    (applyChunk m true ex sq rows).2.getD i none
      = some (sq (listVariance ((m.map (fun t => t (rowFeatures (rows.getD i [])))).map ex))) := by
  rw [applyChunk_eq_map]
  rw [getD_map_lt _ rows i hi _ [], getD_map_lt _ rows i hi _ []]
  generalize rows.getD i [] = r at hv ⊢
  simp [predictRow, hv, memberPreds]

theorem C3_witness :
    (0 : ℕ) < exRowsB.length ∧
    isValidRow (exRowsB.getD 0 []) = true ∧
    ((applyChunk [t0, t1] true id id exRowsB).1.getD 0 none
      = some (listMean (([t0, t1].map (fun t => t (rowFeatures (exRowsB.getD 0 [])))).map id)) ∧
    (applyChunk [t0, t1] true id id exRowsB).2.getD 0 none
      = some (id (listVariance (([t0, t1].map
          (fun t => t (rowFeatures (exRowsB.getD 0 [])))).map id)))) :=
  ⟨by decide, by decide,
    C3_exp_before_aggregation [t0, t1] id id exRowsB 0 (by decide) (by decide)⟩

/-! ### Claim C6 -/

/-- C6: after each chunk covering rows start..end has been written, the
logical length of both resizable prediction datasets equals the number of
rows processed so far (the end offset of the k-th chunk, `min (k*c) n`);
the datasets are created on the first chunk and resized-then-appended on
every later chunk, as in `writeChunkDataset`. -/
theorem C6_dataset_length_invariant (m : List (List ℚ → ℚ)) (lt : Bool) (ex sq : ℚ → ℚ)
    (c : ℕ) (rows : List (List Val)) (k : ℕ) (hc : 0 < c) (hk1 : 1 ≤ k)
    (hk : k ≤ (chunkList c rows).length) :
    ∃ p s,
      ((((chunkList c rows).take k).map (fun ch => (applyChunk m lt ex sq ch).1)).foldl
        writeChunkDataset none) = some p ∧
      ((((chunkList c rows).take k).map (fun ch => (applyChunk m lt ex sq ch).2)).foldl
        writeChunkDataset none) = some s ∧
      p.length = min (k * c) rows.length ∧ s.length = min (k * c) rows.length := by
  have hlt : 0 < ((chunkList c rows).take k).length := by
    rw [List.length_take]
    exact lt_min (by omega) (by omega)
  have htk : ((chunkList c rows).take k) ≠ [] := List.length_pos.mp hlt
  have hlen : ∀ f : List (List Val) → List Val, (∀ ch, (f ch).length = ch.length) →
      ((((chunkList c rows).take k).map f).flatten).length = min (k * c) rows.length := by
    intro f hf
    rw [List.length_flatten, List.map_map]
    have : ((chunkList c rows).take k).map (List.length ∘ f)
        = ((chunkList c rows).take k).map List.length :=
      List.map_congr_left fun ch _ => hf ch
    rw [this, chunkList_take_length_sum hc]
  refine ⟨_, _,
    foldl_write_none _ (by simpa using htk),
    foldl_write_none _ (by simpa using htk), ?_, ?_⟩
  · refine hlen _ fun ch => ?_
    rw [applyChunk_eq_map]
    simp
  · refine hlen _ fun ch => ?_
    rw [applyChunk_eq_map]
    simp

theorem C6_witness :
    0 < 2 ∧ 1 ≤ 2 ∧ 2 ≤ (chunkList 2 exRows3).length ∧
    ∃ p s,
      ((((chunkList 2 exRows3).take 2).map
        (fun ch => (applyChunk [t0] false id id ch).1)).foldl
          writeChunkDataset none) = some p ∧
      ((((chunkList 2 exRows3).take 2).map
        (fun ch => (applyChunk [t0] false id id ch).2)).foldl
          writeChunkDataset none) = some s ∧
      p.length = min (2 * 2) exRows3.length ∧
      s.length = min (2 * 2) exRows3.length :=
  ⟨by decide, by decide, by decide,
    C6_dataset_length_invariant [t0] false id id 2 exRows3 2
      (by decide) (by decide) (by decide)⟩

/-! ### Splitter lemmas -/

lemma pyRound_abs_le (q : ℚ) : |(pyRound q : ℚ) - q| ≤ 1 / 2 := by
  have h0 : (0 : ℚ) ≤ q - ⌊q⌋ := sub_nonneg.mpr (Int.floor_le q)
  have h1 : q - ⌊q⌋ < 1 := by
    have := Int.lt_floor_add_one q
    push_cast at this ⊢
    linarith
  unfold pyRound
  split_ifs with hA hB hC
  · rw [abs_sub_comm, abs_of_nonneg h0]
    linarith
  · push_cast
    rw [abs_of_nonneg (by linarith)]
    linarith
  · have : q - ⌊q⌋ = 1 / 2 := le_antisymm (not_lt.mp hB) (not_lt.mp hA)
    rw [abs_sub_comm, abs_of_nonneg h0, this]
  · have : q - ⌊q⌋ = 1 / 2 := le_antisymm (not_lt.mp hB) (not_lt.mp hA)
    push_cast
    rw [abs_of_nonneg (by linarith)]
    linarith

lemma adjustCounts_length (nTotal : ℕ) (counts : List ℤ) :
    (adjustCounts nTotal counts).length = counts.length := by
  unfold adjustCounts
  split_ifs with h
  · have hne : counts ≠ [] := by
      rintro rfl
      simp at h
      omega
    rw [List.length_append, List.length_dropLast, List.length_singleton]
    have : 0 < counts.length := List.length_pos.mpr hne
    omega
  · rfl

lemma adjustCounts_sum_le (nTotal : ℕ) (counts : List ℤ) :
    (adjustCounts nTotal counts).sum ≤ (nTotal : ℤ) := by
  unfold adjustCounts
  split_ifs with h
  · have hne : counts ≠ [] := by
      rintro rfl
      simp at h
      omega
    have hds : counts.dropLast.sum + counts.getLast hne = counts.sum := by
      conv_rhs => rw [← List.dropLast_append_getLast hne]
      rw [List.sum_append, List.sum_cons, List.sum_nil]
      ring
    have hgl : counts.getLast?.getD 0 = counts.getLast hne := by
      rw [List.getLast?_eq_getLast counts hne]
      rfl
    rw [List.sum_append, List.sum_cons, List.sum_nil, hgl]
    omega
  · omega

lemma adjustCounts_front (nTotal : ℕ) (counts : List ℤ) (i : ℕ)
    (hi : i + 1 < counts.length) :
    (adjustCounts nTotal counts).getD i 0 = counts.getD i 0 := by
  unfold adjustCounts
  split_ifs with h
  · have hdl : i < counts.dropLast.length := by
      rw [List.length_dropLast]
      omega
    rw [List.getD_eq_getElem _ _ (by
        rw [List.length_append, List.length_dropLast, List.length_singleton]
        omega),
      List.getElem_append_left hdl, List.getElem_dropLast,
      ← List.getD_eq_getElem _ (0 : ℤ) (by omega)]
  · rfl

lemma adjustCounts_last (nTotal : ℕ) (counts : List ℤ) (hne : counts ≠ [])
    (h : (nTotal : ℤ) < counts.sum) :
    (adjustCounts nTotal counts).getLast?
      = some (counts.getLast hne - (counts.sum - nTotal)) := by
  unfold adjustCounts
  rw [if_pos h, List.getLast?_concat, List.getLast?_eq_getLast counts hne]
  rfl

lemma sum_toNat_of_nonneg :
    ∀ l : List ℤ, (∀ x ∈ l, 0 ≤ x) → ((l.map Int.toNat).sum : ℤ) = l.sum := by
  intro l
  induction l with
  | nil => intro _; simp
  | cons x xs ih =>
    intro h
    have hx : 0 ≤ x := h x (List.mem_cons_self x xs)
    have hxs := ih fun y hy => h y (List.mem_cons_of_mem x hy)
    simp only [List.map_cons, List.sum_cons, Nat.cast_add]
    rw [hxs]
    have hxe : (x.toNat : ℤ) = x := Int.toNat_of_nonneg hx
    omega

lemma splitRun_ok (choice : Finset ℕ → ℕ → Finset ℕ)
    (hchoice : ∀ p n, n ≤ p.card → choice p n ⊆ p ∧ (choice p n).card = n) :
    ∀ (counts : List ℤ) (pool : Finset ℕ),
      (∀ n ∈ counts, 0 ≤ n) → counts.sum ≤ (pool.card : ℤ) →
      ∃ parts, splitRun choice pool counts = .ok parts ∧
        parts.length = counts.length ∧
        (∀ pr ∈ parts, pr ⊆ pool) ∧
        parts.map Finset.card = counts.map Int.toNat ∧
        List.Pairwise Disjoint parts := by
  intro counts
  induction counts with
  | nil =>
    intro pool _ _
    exact ⟨[], rfl, rfl, fun pr h => absurd h (List.not_mem_nil pr), rfl,
      List.Pairwise.nil⟩
  | cons n ns ih =>
    intro pool hnn hsum
    have hn0 : 0 ≤ n := hnn n (List.mem_cons_self n ns)
    have hns : ∀ x ∈ ns, 0 ≤ x := fun x hx => hnn x (List.mem_cons_of_mem n hx)
    have hnssum : 0 ≤ ns.sum := List.sum_nonneg hns
    rw [List.sum_cons] at hsum
    have hcard : n.toNat ≤ pool.card := by
      rw [Int.toNat_le]
      omega
    obtain ⟨hsub, hcardEq⟩ := hchoice pool n.toNat hcard
    have hrecSum : ns.sum ≤ (((pool \ choice pool n.toNat).card : ℕ) : ℤ) := by
      rw [Finset.card_sdiff hsub, hcardEq]
      have hc : ((pool.card - n.toNat : ℕ) : ℤ) = (pool.card : ℤ) - n.toNat :=
        Nat.cast_sub hcard
      rw [hc]
      have : (n.toNat : ℤ) = n := Int.toNat_of_nonneg hn0
      omega
    obtain ⟨parts, hOk, hLen, hSub, hCards, hPw⟩ :=
      ih (pool \ choice pool n.toNat) hns hrecSum
    refine ⟨choice pool n.toNat :: parts, ?_, by simp [hLen], ?_, ?_, ?_⟩
    · simp only [splitRun]
      rw [if_pos ⟨hn0, hcard⟩, hOk]
    · intro pr hpr
      rcases List.mem_cons.mp hpr with h | h
      · rw [h]; exact hsub
      · exact (hSub pr h).trans (Finset.sdiff_subset)
    · simp [hCards, hcardEq]
    · refine List.Pairwise.cons ?_ hPw
      intro pr hpr
      have hsd : pr ⊆ pool \ choice pool n.toNat := hSub pr hpr
      exact Finset.disjoint_left.mpr fun a ha hat =>
        (Finset.mem_sdiff.mp (hsd hat)).2 ha

lemma splitRun_err (choice : Finset ℕ → ℕ → Finset ℕ)
    (hchoice : ∀ p n, n ≤ p.card → choice p n ⊆ p ∧ (choice p n).card = n) :
    ∀ (counts : List ℤ) (pool : Finset ℕ),
      ¬ ((∀ n ∈ counts, 0 ≤ n) ∧ counts.sum ≤ (pool.card : ℤ)) →
      splitRun choice pool counts = .error () := by
  intro counts
  induction counts with
  | nil =>
    intro pool h
    exact absurd ⟨fun n hn => absurd hn (List.not_mem_nil n), by simp⟩ h
  | cons n ns ih =>
    intro pool h
    by_cases hn : 0 ≤ n ∧ n.toNat ≤ pool.card
    · obtain ⟨hsub, hcardEq⟩ := hchoice pool n.toNat hn.2
      have hrec : ¬ ((∀ x ∈ ns, 0 ≤ x)
          ∧ ns.sum ≤ (((pool \ choice pool n.toNat).card : ℕ) : ℤ)) := by
        rintro ⟨ha, hb⟩
        apply h
        refine ⟨fun x hx => ?_, ?_⟩
        · rcases List.mem_cons.mp hx with hx' | hx'
          · rw [hx']; exact hn.1
          · exact ha x hx'
        · rw [Finset.card_sdiff hsub, hcardEq, Nat.cast_sub hn.2] at hb
          rw [List.sum_cons]
          have : (n.toNat : ℤ) = n := Int.toNat_of_nonneg hn.1
          omega
      simp only [splitRun]
      rw [if_pos hn, ih _ hrec]
    · simp only [splitRun]
      rw [if_neg hn]

lemma takeChoice_spec :
    ∀ (p : Finset ℕ) (n : ℕ), n ≤ p.card → takeChoice p n ⊆ p ∧ (takeChoice p n).card = n := by
  intro p n hn
  constructor
  · intro a ha
    have hmem := List.mem_toFinset.mp ha
    exact (Finset.mem_sort (α := ℕ) (· ≤ ·)).mp (List.mem_of_mem_take hmem)
  · unfold takeChoice
    have hnd : ((p.sort (· ≤ ·)).take n).Nodup :=
      (List.take_sublist n _).nodup (p.sort_nodup (· ≤ ·))
    rw [List.toFinset_card_of_nodup hnd, List.length_take, Finset.length_sort]
    exact min_eq_left hn

/-! ### Claim C4 -/

/-- C4 (amended): for every splitter invocation with equal-length name and
fraction lists whose adjusted counts are all nonnegative, the produced named
partitions are pairwise disjoint in row identity, their sizes sum to at most
the input row count, and every partition except the last deviates from its
requested fraction of the total by at most one row.  (The last partition
absorbs the whole rounding overflow and can deviate by more, see the
counterexample.) -/
theorem C4_partition_properties (choice : Finset ℕ → ℕ → Finset ℕ)
    (hchoice : ∀ p n, n ≤ p.card → choice p n ⊆ p ∧ (choice p n).card = n)
    (nTotal : ℕ) (fractions : List ℚ) (names : List String)
    (hlen : fractions.length = names.length)
    (hnn : ∀ n ∈ adjustCounts nTotal (numEvents nTotal fractions), 0 ≤ n) :
    ∃ warn parts, splitMain choice nTotal fractions names = .ok (warn, parts) ∧
      parts.length = fractions.length ∧
      List.Pairwise Disjoint parts ∧
      (parts.map Finset.card).sum ≤ nTotal ∧
      ∀ i, i + 1 < fractions.length →
        |(((parts.map Finset.card).getD i 0 : ℚ)) - nTotal * fractions.getD i 0| ≤ 1 := by
  have hsumle : (adjustCounts nTotal (numEvents nTotal fractions)).sum
      ≤ ((Finset.range nTotal).card : ℤ) := by
    rw [Finset.card_range]
    exact adjustCounts_sum_le _ _
  obtain ⟨parts, hOk, hLen, hSub, hCards, hPw⟩ :=
    splitRun_ok choice hchoice _ (Finset.range nTotal) hnn hsumle
  have hLenF : (adjustCounts nTotal (numEvents nTotal fractions)).length
      = fractions.length := by
    rw [adjustCounts_length]
    simp [numEvents]
  refine ⟨decide (fractions.sum ≠ 1), parts, ?_, by rw [hLen, hLenF], hPw, ?_, ?_⟩
  · unfold splitMain
    rw [if_pos hlen, hOk]
  · rw [hCards]
    have hz := sum_toNat_of_nonneg _ hnn
    have hle := adjustCounts_sum_le nTotal (numEvents nTotal fractions)
    omega
  · intro i hi
    have hif : i < fractions.length := by omega
    have hiNE : i + 1 < (numEvents nTotal fractions).length := by
      simp only [numEvents, List.length_map]
      omega
    have hics : i < (adjustCounts nTotal (numEvents nTotal fractions)).length := by
      rw [hLenF]
      omega
    have hgd : (adjustCounts nTotal (numEvents nTotal fractions)).getD i 0
        = pyRound ((nTotal : ℚ) * fractions.getD i 0) := by
      rw [adjustCounts_front nTotal _ i hiNE]
      exact getD_map_lt _ fractions i hif 0 0
    have hcnt : 0 ≤ (adjustCounts nTotal (numEvents nTotal fractions)).getD i 0 := by
      apply hnn
      rw [List.getD_eq_getElem _ _ hics]
      exact List.getElem_mem _
    rw [hCards, getD_map_lt Int.toNat _ i hics 0 0]
    have hcast : ((((adjustCounts nTotal (numEvents nTotal fractions)).getD i 0).toNat : ℚ))
        = (((adjustCounts nTotal (numEvents nTotal fractions)).getD i 0 : ℤ) : ℚ) := by
      exact_mod_cast Int.toNat_of_nonneg hcnt
    rw [hcast, hgd]
    exact (pyRound_abs_le ((nTotal : ℚ) * fractions.getD i 0)).trans (by norm_num)

theorem C4_counterexample :
    exChoice (Finset.range 2) 2 ⊆ Finset.range 2 ∧
    (exChoice (Finset.range 2) 2).card = 2 ∧
    splitMain exChoice 2 [(1 : ℚ), 1] ["a", "b"] = .ok (true, [Finset.range 2, ∅]) ∧
    ¬ (∀ i, i < 2 →
        |((([Finset.range 2, (∅ : Finset ℕ)].map Finset.card).getD i 0 : ℚ))
          - (2 : ℚ) * ([(1 : ℚ), 1].getD i 0)| ≤ 1) := by
  have h1 : numEvents 2 [(1 : ℚ), 1] = [2, 2] := by norm_num [numEvents, pyRound]
  have h2 : adjustCounts 2 [2, 2] = [2, 0] := by decide
  have h3 : splitRun exChoice (Finset.range 2) [2, 0] = .ok [Finset.range 2, ∅] := by decide
  refine ⟨by decide, by decide, ?_, ?_⟩
  · unfold splitMain
    rw [if_pos (show [(1 : ℚ), 1].length = ["a", "b"].length from rfl), h1, h2, h3,
      decide_eq_true (show ([(1 : ℚ), 1]).sum ≠ 1 by norm_num)]
  · intro hAll
    have hbad := hAll 1 (by norm_num)
    rw [show (([Finset.range 2, (∅ : Finset ℕ)].map Finset.card).getD 1 0) = 0 from rfl] at hbad
    norm_num at hbad

theorem C4_witness :
    (∀ p n, n ≤ p.card → takeChoice p n ⊆ p ∧ (takeChoice p n).card = n) ∧
    ([(1 : ℚ)/2, 1/4].length = ["a", "b"].length) ∧
    (∀ n ∈ adjustCounts 4 (numEvents 4 [(1 : ℚ)/2, 1/4]), 0 ≤ n) ∧
    ∃ warn parts, splitMain takeChoice 4 [(1 : ℚ)/2, 1/4] ["a", "b"] = .ok (warn, parts) ∧
      parts.length = [(1 : ℚ)/2, 1/4].length ∧
      List.Pairwise Disjoint parts ∧
      (parts.map Finset.card).sum ≤ 4 ∧
      ∀ i, i + 1 < [(1 : ℚ)/2, 1/4].length →
        |(((parts.map Finset.card).getD i 0 : ℚ)) - 4 * ([(1 : ℚ)/2, 1/4].getD i 0)| ≤ 1 :=
  ⟨takeChoice_spec, by decide,
    by
      rw [(by norm_num [numEvents, pyRound] : numEvents 4 [(1 : ℚ)/2, 1/4] = [2, 1])]
      decide,
    C4_partition_properties takeChoice takeChoice_spec 4 [(1 : ℚ)/2, 1/4] ["a", "b"]
      (by decide)
      (by
        rw [(by norm_num [numEvents, pyRound] : numEvents 4 [(1 : ℚ)/2, 1/4] = [2, 1])]
        decide)⟩

/-! ### Claim C8 -/

/-- C8: when the fractions do not sum to 1, the splitter emits a warning
(the `true` flag) and still runs to completion producing all named parts;
the condition never aborts the run. -/
theorem C8_fraction_sum_warning (choice : Finset ℕ → ℕ → Finset ℕ)
    (hchoice : ∀ p n, n ≤ p.card → choice p n ⊆ p ∧ (choice p n).card = n)
    (nTotal : ℕ) (fractions : List ℚ) (names : List String)
    (hlen : fractions.length = names.length)
    (hsum : fractions.sum ≠ 1)
    (hnn : ∀ n ∈ adjustCounts nTotal (numEvents nTotal fractions), 0 ≤ n) :
    ∃ parts, splitMain choice nTotal fractions names = .ok (true, parts) ∧
      parts.length = names.length := by
  obtain ⟨parts, hOk, hLen, _, _, _⟩ :=
    splitRun_ok choice hchoice _ (Finset.range nTotal) hnn
      (by rw [Finset.card_range]; exact adjustCounts_sum_le _ _)
  refine ⟨parts, ?_, ?_⟩
  · unfold splitMain
    rw [if_pos hlen, hOk, decide_eq_true hsum]
  · rw [hLen, adjustCounts_length]
    simp only [numEvents, List.length_map]
    exact hlen

theorem C8_witness :
    (∀ p n, n ≤ p.card → takeChoice p n ⊆ p ∧ (takeChoice p n).card = n) ∧
    ([(1 : ℚ)/2, 1/4].length = ["a", "b"].length) ∧
    ([(1 : ℚ)/2, 1/4].sum ≠ 1) ∧
    (∀ n ∈ adjustCounts 4 (numEvents 4 [(1 : ℚ)/2, 1/4]), 0 ≤ n) ∧
    ∃ parts, splitMain takeChoice 4 [(1 : ℚ)/2, 1/4] ["a", "b"] = .ok (true, parts) ∧
      parts.length = ["a", "b"].length :=
  ⟨takeChoice_spec, by decide, by norm_num,
    by
      rw [(by norm_num [numEvents, pyRound] : numEvents 4 [(1 : ℚ)/2, 1/4] = [2, 1])]
      decide,
    C8_fraction_sum_warning takeChoice takeChoice_spec 4 [(1 : ℚ)/2, 1/4] ["a", "b"]
      (by decide) (by norm_num)
      (by
        rw [(by norm_num [numEvents, pyRound] : numEvents 4 [(1 : ℚ)/2, 1/4] = [2, 1])]
        decide)⟩

/-! ### Claim C10 -/

/-- C10: when the rounded counts overshoot the total, the whole overflow is
subtracted from the last count only (all earlier counts are unchanged); when
that leaves the last count negative, the sampling loop fails with an error
instead of producing an empty final partition. -/
theorem C10_overflow_on_last_then_failure (choice : Finset ℕ → ℕ → Finset ℕ)
    (hchoice : ∀ p n, n ≤ p.card → choice p n ⊆ p ∧ (choice p n).card = n)
    (nTotal : ℕ) (fractions : List ℚ) (hne : fractions ≠ [])
    (hover : (nTotal : ℤ) < (numEvents nTotal fractions).sum)
    (hneg : (adjustCounts nTotal (numEvents nTotal fractions)).getLast?.getD 0 < 0) :
    (∀ i, i + 1 < fractions.length →
      (adjustCounts nTotal (numEvents nTotal fractions)).getD i 0
        = (numEvents nTotal fractions).getD i 0) ∧
    (adjustCounts nTotal (numEvents nTotal fractions)).getLast?
      = some ((numEvents nTotal fractions).getLast (by simp [numEvents, hne])
          - ((numEvents nTotal fractions).sum - nTotal)) ∧
    splitRun choice (Finset.range nTotal)
      (adjustCounts nTotal (numEvents nTotal fractions)) = .error () := by
  have hNEne : numEvents nTotal fractions ≠ [] := by simp [numEvents, hne]
  refine ⟨?_, ?_, ?_⟩
  · intro i hi
    refine adjustCounts_front nTotal _ i ?_
    simp only [numEvents, List.length_map]
    omega
  · exact adjustCounts_last nTotal _ hNEne hover
  · apply splitRun_err choice hchoice
    rintro ⟨hall, _⟩
    have hadjne : adjustCounts nTotal (numEvents nTotal fractions) ≠ [] := by
      intro hnil
      have hl := adjustCounts_length nTotal (numEvents nTotal fractions)
      rw [hnil] at hl
      exact hNEne (List.eq_nil_of_length_eq_zero hl.symm)
    have hmem := List.getLast_mem hadjne
    have hge := hall _ hmem
    rw [List.getLast?_eq_getLast _ hadjne, Option.getD_some] at hneg
    omega

theorem C10_witness :
    (∀ p n, n ≤ p.card → takeChoice p n ⊆ p ∧ (takeChoice p n).card = n) ∧
    ([(1 : ℚ), 1, 1/5] ≠ []) ∧
    ((10 : ℤ) < (numEvents 10 [(1 : ℚ), 1, 1/5]).sum) ∧
    ((adjustCounts 10 (numEvents 10 [(1 : ℚ), 1, 1/5])).getLast?.getD 0 < 0) ∧
    ((∀ i, i + 1 < [(1 : ℚ), 1, 1/5].length →
      (adjustCounts 10 (numEvents 10 [(1 : ℚ), 1, 1/5])).getD i 0
        = (numEvents 10 [(1 : ℚ), 1, 1/5]).getD i 0) ∧
    (adjustCounts 10 (numEvents 10 [(1 : ℚ), 1, 1/5])).getLast?
      = some ((numEvents 10 [(1 : ℚ), 1, 1/5]).getLast
            (by simp [numEvents])
          - ((numEvents 10 [(1 : ℚ), 1, 1/5]).sum - 10)) ∧
    splitRun takeChoice (Finset.range 10)
      (adjustCounts 10 (numEvents 10 [(1 : ℚ), 1, 1/5])) = .error ()) :=
  ⟨takeChoice_spec, by simp,
    by
      rw [(by norm_num [numEvents, pyRound] : numEvents 10 [(1 : ℚ), 1, 1/5] = [10, 10, 2])]
      decide,
    by
      rw [(by norm_num [numEvents, pyRound] : numEvents 10 [(1 : ℚ), 1, 1/5] = [10, 10, 2])]
      decide,
    C10_overflow_on_last_then_failure takeChoice takeChoice_spec 10 [(1 : ℚ), 1, 1/5]
      (by simp)
      (by
        rw [(by norm_num [numEvents, pyRound] : numEvents 10 [(1 : ℚ), 1, 1/5] = [10, 10, 2])]
        decide)
      (by
        rw [(by norm_num [numEvents, pyRound] : numEvents 10 [(1 : ℚ), 1, 1/5] = [10, 10, 2])]
        decide)⟩

/-! ### Claim C9 -/

lemma overwriteCheck_err_kind (cols : Finset String) (className : String)
    (yes confirm : Bool) (e : ApplyErr) (s : Finset String)
    (h : overwriteCheck cols className yes confirm = .error (e, s)) :
    e = ApplyErr.abortedOverwrite ∨ e = ApplyErr.keyError := by
  simp only [overwriteCheck] at h
  split_ifs at h
  all_goals
    first
    | (simp only [Except.error.injEq, Prod.mk.injEq] at h
       first
       | exact Or.inl h.1.symm
       | exact Or.inr h.1.symm)
    | exact absurd h (by simp)

/-- C9: in the regression apply script's overwrite path, if the prediction
column exists but the companion std column does not, the run fails with a
key error only after the prediction column has already been deleted, leaving
the file modified on error: the deletion is not atomic. -/
theorem C9_overwrite_keyerror_after_delete (cols : Finset String)
    (className : String) (yes confirm : Bool) (hmem : className ∈ cols)
    (hstd : className ++ "_std" ∉ cols) (hpass : yes = true ∨ confirm = true) :
    overwriteCheck cols className yes confirm
      = .error (.keyError, cols.erase className) ∧
    cols.erase className ≠ cols := by
  constructor
  · have h1 : ¬ (yes = false ∧ confirm = false) := by
      rintro ⟨ha, hb⟩
      rcases hpass with h | h <;> simp_all
    have h2 : ¬ (className ++ "_std" ∈ cols.erase className) :=
      fun hm => hstd (Finset.mem_of_mem_erase hm)
    simp only [overwriteCheck]
    rw [if_pos hmem, if_neg h1, if_neg h2]
  · intro h
    have hmem' : className ∈ cols.erase className := h.symm ▸ hmem
    exact Finset.not_mem_erase className cols hmem'

theorem C9_witness :
    ("gamma_energy_prediction" ∈ ({"gamma_energy_prediction"} : Finset String)) ∧
    ("gamma_energy_prediction" ++ "_std" ∉ ({"gamma_energy_prediction"} : Finset String)) ∧
    (true = true ∨ false = true) ∧
    (overwriteCheck {"gamma_energy_prediction"} "gamma_energy_prediction" true false
        = .error (.keyError, ({"gamma_energy_prediction"} : Finset String).erase
            "gamma_energy_prediction") ∧
      ({"gamma_energy_prediction"} : Finset String).erase "gamma_energy_prediction"
        ≠ {"gamma_energy_prediction"}) :=
  ⟨by decide, by decide, Or.inl rfl,
    C9_overwrite_keyerror_after_delete {"gamma_energy_prediction"}
      "gamma_energy_prediction" true false (by decide) (by decide) (Or.inl rfl)⟩

/-! ### Claim C5 -/

/-- C5 (amended): the separation apply script raises a user-facing error and
aborts before any prediction when its configured columns include a
source-dependent feature; the regression apply script performs no such check
and can never abort for that reason. -/
theorem C5_only_separation_checks_source_features (srcDep : String → Bool)
    (columnsToRead : List String) (predictFn : List (List Val) → List ℚ)
    (c : ℕ) (rows : List (List Val)) (h : columnsToRead.any srcDep = true) :
    applySeparationRun srcDep columnsToRead predictFn c rows
      = .error .sourceDependent ∧
    ∀ (tv : List String) (m : List (List ℚ → ℚ)) (lt : Bool) (ex sq : ℚ → ℚ)
      (c2 : ℕ) (cols : Finset String) (cn : String) (y cf : Bool)
      (rs : List (List Val)) (s : Finset String),
      applyRegressionRun tv m lt ex sq c2 cols cn y cf rs
        ≠ .error (ApplyErr.sourceDependent, s) := by
  refine ⟨?_, ?_⟩
  · unfold applySeparationRun
    rw [if_pos h]
  · intro tv m lt ex sq c2 cols cn y cf rs s heq
    unfold applyRegressionRun at heq
    rcases hoc : overwriteCheck cols cn y cf with e | st
    · rw [hoc] at heq
      obtain ⟨e1, s1⟩ := e
      have hk := overwriteCheck_err_kind cols cn y cf e1 s1 hoc
      have he : e1 = ApplyErr.sourceDependent ∧ s1 = s := by simpa using heq
      rcases hk with hk | hk
      · rw [he.1] at hk
        exact ApplyErr.noConfusion hk
      · rw [he.1] at hk
        exact ApplyErr.noConfusion hk
    · rw [hoc] at heq
      simp at heq

theorem C5_witness :
    (["src_dist"].any (fun s => s == "src_dist") = true) ∧
    (applySeparationRun (fun s => s == "src_dist") ["src_dist"] (fun _ => []) 1 []
        = .error .sourceDependent ∧
      ∀ (tv : List String) (m : List (List ℚ → ℚ)) (lt : Bool) (ex sq : ℚ → ℚ)
        (c2 : ℕ) (cols : Finset String) (cn : String) (y cf : Bool)
        (rs : List (List Val)) (s : Finset String),
        applyRegressionRun tv m lt ex sq c2 cols cn y cf rs
          ≠ .error (ApplyErr.sourceDependent, s)) :=
  ⟨rfl, C5_only_separation_checks_source_features (fun s => s == "src_dist")
    ["src_dist"] (fun _ => []) 1 [] rfl⟩

theorem C5_counterexample :
    (fun s => s == "src_dist") "src_dist" = true ∧
    applyRegressionRun ["src_dist"] [t0] false id id 1 ∅ "gamma_energy_prediction"
        true true exRows2
      = .ok ([some 1, none], [some 0, none]) := by
  constructor
  · rfl
  · unfold applyRegressionRun
    rw [show overwriteCheck ∅ "gamma_energy_prediction" true true = .ok ∅ from rfl]
    show Except.ok (applyChunked [t0] false id id 1 exRows2) = _
    unfold applyChunked
    rw [show (chunkList 1 exRows2) = [[[some 1]], [[none]]] from rfl,
      List.map_cons, List.map_cons, List.map_nil,
      applyChunk_eq_map, applyChunk_eq_map]
    norm_num [predictRow, isValidRow, memberPreds, rowFeatures, t0,
      listMean, listVariance]

/-! ### Claim C7 -/

/-- C7: each cross-validation fold of the trainer behaves as the spec
prescribes: a fresh fit on the fold's training subset, prediction on its
held-out subset, the log transform undone on both predictions and labels
before the fold's coefficient of determination is computed, with the fold
number recorded. -/
theorem C7_fold_refines_spec {M : Type} (fit : List (List ℚ) → List ℚ → M)
    (predictFn : M → List (List ℚ) → List ℚ) (lt : Bool) (ex : ℚ → ℚ)
    (X : List (List ℚ)) (y : List ℚ) (folds : List (List ℕ × List ℕ)) (i : ℕ)
    (hi : i < folds.length) :
    (cvSplitApply fit predictFn lt ex X y folds).getD i ([], [], 0, 0)
      = specFoldOutcome fit predictFn lt ex X y (folds.getD i ([], [])).1
          (folds.getD i ([], [])).2 i := by
  unfold cvSplitApply
  have hie : i < folds.enum.length := by
    rw [List.enum_length]
    exact hi
  rw [getD_map_lt _ folds.enum i hie _ (0, ([], []))]
  rw [List.getD_eq_getElem _ _ hie, List.getElem_enum,
    ← List.getD_eq_getElem folds ([], []) hi]
  rfl

theorem C7_witness :
    0 < exFolds.length ∧
    (cvSplitApply exFit exPredict true id exX exY exFolds).getD 0 ([], [], 0, 0)
      = specFoldOutcome exFit exPredict true id exX exY (exFolds.getD 0 ([], [])).1
          (exFolds.getD 0 ([], [])).2 0 :=
  ⟨by decide, C7_fold_refines_spec exFit exPredict true id exX exY exFolds 0 (by decide)⟩

end Klaas
